import Mathlib

/-!
Shallow embedding of the `room` zellij plugin (`src/main.rs`): the tab
fuzzy-search overlay's state machine (filter text, tab snapshot, selection),
its event dispatcher, and the startup configuration read.  Host-bound calls
(`close_focus`, `switch_tab_to`) are embedded as emitted `Command` values.
-/

namespace Room

/-- A tab as reported by the host multiplexer: `zellij_tile`'s `TabInfo`
restricted to the fields the plugin reads (`position`, `name`, `active`). -/
structure TabInfo where
  position : Nat
  name : String
  active : Bool
deriving DecidableEq

/-- The plugin state: `struct State` in `main.rs`.  Field defaults mirror
`#[derive(Default)]`. -/
structure State where
  tabs : List TabInfo := []
  filter : String := ""
  selected : Option Nat := none
  ignore_case : Bool := false
deriving DecidableEq

/-- Host-bound commands emitted by the dispatcher
(`close_focus()` and `switch_tab_to(..)` in `main.rs`). -/
inductive Command where
  | closeFocus
  | switchTabTo (n : Nat)
deriving DecidableEq

/-- The key events the plugin's `update` distinguishes; every key variant it
does not name falls into `otherKey` (handled by the catch-all arm). -/
inductive Key where
  | esc
  | ctrl (c : Char)
  | down
  | up
  | char (c : Char)
  | backspace
  | otherKey
deriving DecidableEq

/-- Events delivered by the host: `Event::TabUpdate`, `Event::Key`, and a
catch-all for every other subscribed or stray event. -/
inductive Event where
  | tabUpdate (tab_info : List TabInfo)
  | key (k : Key)
  | other
deriving DecidableEq

/-- Modelled from the spec: stands in for the external `fuzzy_matcher` crate's
`SkimMatcherV2::fuzzy_match` (third-party code, not part of this repository).
Greedy leftmost subsequence match of the pattern inside the text, returning
the list of matched text indices, or `none` when the pattern is not a
subsequence of the text.  Per spec §4.1 the exact scoring formula is an
interchangeable detail; the load-bearing contract is: a score exists iff every
pattern character appears in the text in the same left-to-right order with
gaps allowed, and an empty pattern matches every text with one equal score. -/
def matchIndices : List Char → List Char → Nat → Option (List Nat)
  | [], _, _ => some []
  | _ :: _, [], _ => none
  | p :: ps, t :: ts, i =>
    if p = t then (matchIndices ps ts (i + 1)).map (fun l => i :: l)
    else matchIndices (p :: ps) ts (i + 1)

/-- Modelled from the spec: score of a successful match — one point per
matched character plus a bonus for each pair of adjacent matched indices
(contiguous runs score higher than scattered matches, spec §4.1). -/
def scoreRun : List Nat → Nat
  | [] => 0
  | [_] => 1
  | i :: j :: rest => (if j = i + 1 then 9 else 1) + scoreRun (j :: rest)

/-- Modelled from the spec: `SkimMatcherV2::fuzzy_match(text, pattern)`,
returning `some score` on a subsequence match and `none` otherwise. -/
def fuzzyMatch (text pattern : String) : Option Int :=
  (matchIndices pattern.data text.data 0).map (fun l => (scoreRun l : Int))

/-- Rust `str::to_lowercase`, embedded at the character level: each character
is lower-cased in place (Unicode multi-character special casing is out of
scope for the tab names and filters this plugin handles). -/
def stringToLower (s : String) : String :=
  String.mk (s.data.map Char.toLower)

/-- The composite search key built by `State::score`: "position+1: name". -/
def searchKey (tab : TabInfo) : String :=
  toString (tab.position + 1) ++ ": " ++ tab.name

/-- `State::score` from `main.rs`: fuzzy score of the lower-cased composite
key against the lower-cased filter text, `-1` when there is no match. -/
def State.score (s : State) (tab : TabInfo) : Int :=
  let index_str := toString (tab.position + 1)
  let search_str := index_str ++ ": " ++ tab.name
  match fuzzyMatch (stringToLower search_str) (stringToLower s.filter) with
  | some x => x
  | none => -1

/-- The scored-and-filtered tab list built inside `State::viewable_tabs_iter`:
each tab paired with its score, keeping only scores `>= 0`. -/
def State.scored (s : State) : List (TabInfo × Int) :=
  (s.tabs.map (fun tab => (tab, s.score tab))).filter (fun tup => 0 ≤ tup.2)

/-- `State::viewable_tabs_iter` / `State::viewable_tabs`: the scored list is
sorted by score descending and the tabs extracted.  Rust's `Vec::sort_by` is a
stable sort, embedded as the stable `List.insertionSort` under the same
comparison `b.1.cmp(&a.1)` (score descending). -/
def State.viewable_tabs (s : State) : List TabInfo :=
  (s.scored.insertionSort (fun a b => b.2 ≤ a.2)).map (fun tup => tup.1)

/-- `State::reset_selection`: select the first viewable tab, or nothing when
the viewable set is empty.  The final `none` branch is the (unreachable in
Rust) case of a non-empty list with no first element, where `self.selected`
is left unchanged. -/
def State.reset_selection (s : State) : State :=
  let tabs := s.viewable_tabs
  if tabs.isEmpty then { s with selected := none }
  else
    match tabs.head? with
    | some tab => { s with selected := some tab.position }
    | none => s

/-- The loop body of `State::select_down`: walk the viewable list with the
`can_select` flag; once the currently selected position has been seen, the
next element is selected (early return, `some`); falling off the end yields
`none` (the caller then wraps to the first element). -/
def selectDownGo (sel : Option Nat) : List TabInfo → Bool → Option Nat
  | [], _ => none
  | tab :: rest, can_select =>
    if can_select then some tab.position
    else if some tab.position = sel then selectDownGo sel rest true
    else selectDownGo sel rest false

/-- `State::select_down` from `main.rs`. -/
def State.select_down (s : State) : State :=
  let tabs := s.viewable_tabs
  match selectDownGo s.selected tabs false with
  | some p => { s with selected := some p }
  | none =>
    match tabs.head? with
    | some tab => { s with selected := some tab.position }
    | none => s

/-- The loop body of `State::select_up`: identical walk (the source duplicates
the loop), run over the reversed viewable list. -/
def selectUpGo (sel : Option Nat) : List TabInfo → Bool → Option Nat
  | [], _ => none
  | tab :: rest, can_select =>
    if can_select then some tab.position
    else if some tab.position = sel then selectUpGo sel rest true
    else selectUpGo sel rest false

/-- `State::select_up` from `main.rs`: the same walk over the reversed
viewable list, wrapping to its first element (the last viewable tab). -/
def State.select_up (s : State) : State :=
  let tabs := (s.viewable_tabs).reverse
  match selectUpGo s.selected tabs false with
  | some p => { s with selected := some p }
  | none =>
    match tabs.head? with
    | some tab => { s with selected := some tab.position }
    | none => s

/-- Rust `String::pop` with the returned character discarded: removes the
last character of the buffer (no-op on an empty buffer). -/
def stringPop (s : String) : String :=
  String.mk s.data.dropLast

/-- Rust `char::is_ascii`: the code point is at most `0x7F`. -/
def charIsAscii (c : Char) : Bool :=
  c.toNat ≤ 127

/-- `ZellijPlugin::update` from `main.rs`, embedded as a pure function
`(state, event) → (state, host commands, should_render)`.  Arms appear in
source order; `close_focus` / `switch_tab_to` become emitted `Command`s. -/
def State.update (s : State) (event : Event) : State × List Command × Bool :=
  match event with
  | .tabUpdate tab_info =>
    ({ s with
        selected := tab_info.findSome?
          (fun tab => if tab.active then some tab.position else none),
        tabs := tab_info },
      [], true)
  | .key .esc => (s, [.closeFocus], false)
  | .key (.ctrl c) =>
    if c = 'c' then (s, [.closeFocus], false)
    else if c = 'n' then (s.select_down, [], true)
    else if c = 'p' then (s.select_up, [], true)
    else (s, [], false)
  | .key .down => (s.select_down, [], true)
  | .key .up => (s.select_up, [], true)
  | .key (.char c) =>
    if c = '\n' ∨ c = 'Y' then
      match s.tabs.find? (fun tab => some tab.position == s.selected) with
      | some tab => (s, [.closeFocus, .switchTabTo (tab.position + 1)], false)
      | none => (s, [], false)
    else if charIsAscii c then
      (({ s with filter := s.filter.push c }).reset_selection, [], true)
    else (s, [], false)
  | .key .backspace =>
    (({ s with filter := stringPop s.filter }).reset_selection, [], true)
  | .key .otherKey => (s, [], false)
  | .other => (s, [], false)

/-- Rust `str::trim`, embedded at the character level: strips leading and
trailing whitespace characters. -/
def stringTrim (s : String) : String :=
  String.mk (((s.data.dropWhile Char.isWhitespace).reverse.dropWhile
    Char.isWhitespace).reverse)

/-- Rust `str::parse::<bool>`: succeeds exactly on the strings "true" and
"false". -/
def parseBool (v : String) : Option Bool :=
  if v = "true" then some true
  else if v = "false" then some false
  else none

/-- The `ignore_case` configuration read in `ZellijPlugin::load`, with the
`BTreeMap` embedded as an association list.  `none` models the panic of
`value.trim().parse().unwrap()` on a present-but-invalid boolean value. -/
def State.load (configuration : List (String × String)) : Option Bool :=
  match configuration.lookup ("ignore_case") with
  | some value => parseBool (stringTrim value)
  | none => some true

/-- The freshly loaded plugin state (`#[derive(Default)]`). -/
def initState : State := {}

/-- Dispatch a list of host events in order starting from `s`, keeping the
resulting state (commands and redraw flags are discarded; used to state
reachability invariants). -/
def run (s : State) : List Event → State
  | [] => s
  | e :: es => run (s.update e).1 es

/-! ### Properties of the matcher model -/

/-- The matcher finds a match exactly when the pattern is a subsequence of
the text (the spec's load-bearing contract for the scoring function). -/
theorem matchIndices_isSome (p t : List Char) : ∀ i : Nat,
    ((matchIndices p t i).isSome = true) ↔ p.Sublist t := by
  induction t generalizing p with
  | nil =>
    intro i
    cases p with
    | nil => simp [matchIndices]
    | cons c ps => simp [matchIndices]
  | cons d ts ih =>
    intro i
    cases p with
    | nil => simp [matchIndices]
    | cons c ps =>
      by_cases h : c = d
      · subst h
        simp only [matchIndices, eq_self_iff_true, if_true, Option.isSome_map']
        rw [ih ps (i + 1)]
        exact ⟨fun hs => List.Sublist.cons₂ _ hs, List.cons_sublist_cons.mp⟩
      · rw [matchIndices, if_neg h, ih (c :: ps) (i + 1)]
        constructor
        · exact fun hs => hs.cons _
        · intro hs
          cases hs with
          | cons _ h2 => exact h2
          | cons₂ _ _ => exact absurd rfl h

/-- `State.score` unfolded through `searchKey`. -/
theorem score_eq_searchKey (s : State) (tab : TabInfo) :
    s.score tab =
      match fuzzyMatch (stringToLower (searchKey tab)) (stringToLower s.filter) with
      | some x => x
      | none => -1 := rfl

/-- A tab scores nonnegative exactly when the lower-cased filter text is a
character subsequence of its lower-cased composite key. -/
theorem score_nonneg_iff (s : State) (tab : TabInfo) :
    0 ≤ s.score tab ↔
      ((stringToLower s.filter).data).Sublist ((stringToLower (searchKey tab)).data) := by
  rw [score_eq_searchKey]
  rw [← matchIndices_isSome (stringToLower s.filter).data
    (stringToLower (searchKey tab)).data 0]
  unfold fuzzyMatch
  cases h : matchIndices (stringToLower s.filter).data
      (stringToLower (searchKey tab)).data 0 with
  | none => simp
  | some l => simp [Int.natCast_nonneg]

/-! ### Structure of the viewable set -/

/-- Membership characterization of the scored-and-filtered pair list. -/
theorem mem_scored {s : State} {x : TabInfo × Int} (h : x ∈ s.scored) :
    x.1 ∈ s.tabs ∧ x.2 = s.score x.1 ∧ 0 ≤ x.2 := by
  unfold State.scored at h
  rw [List.mem_filter] at h
  obtain ⟨h1, h2⟩ := h
  rw [List.mem_map] at h1
  obtain ⟨a, ha, rfl⟩ := h1
  simp only [decide_eq_true_eq] at h2
  exact ⟨ha, rfl, h2⟩

/-- Conversely, any snapshot tab with nonnegative score is in the scored list. -/
theorem mem_scored_of {s : State} {t : TabInfo} (h : t ∈ s.tabs)
    (h2 : 0 ≤ s.score t) : (t, s.score t) ∈ s.scored := by
  unfold State.scored
  rw [List.mem_filter]
  refine ⟨List.mem_map.mpr ⟨t, h, rfl⟩, by simpa using h2⟩

/-- Extracting the tabs from the scored list yields the score-filtered
snapshot, in snapshot order. -/
theorem scored_map_fst (s : State) :
    s.scored.map (fun x => x.1) = s.tabs.filter (fun t => 0 ≤ s.score t) := by
  unfold State.scored
  rw [List.filter_map, List.map_map]
  simp [Function.comp_def]

/-- A tab is viewable exactly when it is in the snapshot with a nonnegative
score. -/
theorem mem_viewable {s : State} {tab : TabInfo} :
    tab ∈ s.viewable_tabs ↔ tab ∈ s.tabs ∧ 0 ≤ s.score tab := by
  unfold State.viewable_tabs
  rw [List.mem_map]
  constructor
  · rintro ⟨x, hx, rfl⟩
    rw [List.mem_insertionSort] at hx
    obtain ⟨h1, h2, h3⟩ := mem_scored hx
    exact ⟨h1, h2 ▸ h3⟩
  · rintro ⟨h1, h2⟩
    exact ⟨(tab, s.score tab), (List.mem_insertionSort _).mpr (mem_scored_of h1 h2),
      rfl⟩

/-- The viewable set only depends on the snapshot and the filter text. -/
theorem viewable_congr {s₁ s₂ : State} (ht : s₁.tabs = s₂.tabs)
    (hf : s₁.filter = s₂.filter) : s₁.viewable_tabs = s₂.viewable_tabs := by
  have hs : s₁.score = s₂.score := by
    funext tab
    unfold State.score
    rw [hf]
  unfold State.viewable_tabs State.scored
  rw [ht, hs]

/-- The viewable set is pairwise sorted by score descending. -/
theorem viewable_pairwise (s : State) :
    (s.viewable_tabs).Pairwise (fun a b => s.score b ≤ s.score a) := by
  unfold State.viewable_tabs
  rw [List.pairwise_map]
  haveI : IsTotal (TabInfo × Int) (fun a b => b.2 ≤ a.2) :=
    ⟨fun a b => Int.le_total b.2 a.2⟩
  haveI : IsTrans (TabInfo × Int) (fun a b => b.2 ≤ a.2) :=
    ⟨fun a b c hab hbc => le_trans hbc hab⟩
  have hs := List.sorted_insertionSort (fun (a b : TabInfo × Int) => b.2 ≤ a.2) s.scored
  refine hs.imp_of_mem ?_
  intro x y hx hy hr
  rw [List.mem_insertionSort] at hx hy
  obtain ⟨_, hx2, _⟩ := mem_scored hx
  obtain ⟨_, hy2, _⟩ := mem_scored hy
  rw [← hx2, ← hy2]
  exact hr

/-- Stability: the equal-score slice of the viewable set is a sublist of the
snapshot, i.e. equal-score tabs stay in snapshot order. -/
theorem viewable_stable (s : State) (c : Int) :
    ((s.viewable_tabs).filter (fun t => s.score t = c)).Sublist s.tabs := by
  have key : (s.scored.insertionSort (fun a b => b.2 ≤ a.2)).filter
      (fun x => decide (x.2 = c)) = s.scored.filter (fun x => decide (x.2 = c)) := by
    have hpair : (s.scored.filter (fun x => decide (x.2 = c))).Pairwise
        (fun a b : TabInfo × Int => b.2 ≤ a.2) := by
      apply List.pairwise_of_forall_mem_list
      intro a ha b hb
      rw [List.mem_filter] at ha hb
      have ha2 : a.2 = c := by simpa using ha.2
      have hb2 : b.2 = c := by simpa using hb.2
      rw [ha2, hb2]
    have hsub : (s.scored.filter (fun x => decide (x.2 = c))).Sublist
        (s.scored.insertionSort (fun a b => b.2 ≤ a.2)) :=
      List.sublist_insertionSort hpair (List.filter_sublist _)
    have hsub2 := hsub.filter (fun x => decide (x.2 = c))
    have hself : ((s.scored.filter (fun x => decide (x.2 = c))).filter
        (fun x => decide (x.2 = c))) = s.scored.filter (fun x => decide (x.2 = c)) :=
      List.filter_eq_self.mpr (fun a ha => (List.mem_filter.mp ha).2)
    rw [hself] at hsub2
    have hperm : ((s.scored.insertionSort (fun a b => b.2 ≤ a.2)).filter
        (fun x => decide (x.2 = c))).Perm (s.scored.filter (fun x => decide (x.2 = c))) :=
      (List.perm_insertionSort _ _).filter _
    exact (hsub2.eq_of_length hperm.length_eq.symm).symm
  unfold State.viewable_tabs
  rw [List.filter_map]
  have hcongr : ∀ x ∈ s.scored.insertionSort (fun a b => b.2 ≤ a.2),
      ((fun t => decide (s.score t = c)) ∘ (fun x : TabInfo × Int => x.1)) x
        = decide (x.2 = c) := by
    intro x hx
    rw [List.mem_insertionSort] at hx
    obtain ⟨_, h2, _⟩ := mem_scored hx
    simp [Function.comp_def, h2]
  rw [List.filter_congr hcongr, key]
  unfold State.scored
  rw [List.filter_filter, List.filter_map, List.map_map]
  simp only [Function.comp_def]
  rw [List.map_id']
  exact List.filter_sublist _

/-- With an empty filter text every tab scores `0`: the empty pattern matches
every key with the same score. -/
theorem score_empty_filter (s : State) (h : s.filter = "") (tab : TabInfo) :
    s.score tab = 0 := by
  rw [score_eq_searchKey]
  unfold fuzzyMatch
  rw [h]
  simp [stringToLower, matchIndices, scoreRun]

/-- With an empty filter text the viewable set is the whole snapshot in its
original order. -/
theorem viewable_empty_filter (s : State) (h : s.filter = "") :
    s.viewable_tabs = s.tabs := by
  have hsc := score_empty_filter s h
  unfold State.viewable_tabs State.scored
  have hall : ∀ x ∈ s.tabs.map (fun tab => (tab, s.score tab)),
      (decide (0 ≤ x.2)) = true := by
    intro x hx
    rw [List.mem_map] at hx
    obtain ⟨a, _, rfl⟩ := hx
    simp [hsc a]
  rw [List.filter_eq_self.mpr hall]
  have hsorted : (s.tabs.map (fun tab => (tab, s.score tab))).Sorted
      (fun a b : TabInfo × Int => b.2 ≤ a.2) := by
    apply List.pairwise_of_forall_mem_list
    intro a ha b hb
    rw [List.mem_map] at ha hb
    obtain ⟨x, _, rfl⟩ := ha
    obtain ⟨y, _, rfl⟩ := hb
    rw [hsc x, hsc y]
  rw [List.Sorted.insertionSort_eq hsorted, List.map_map]
  simp only [Function.comp_def]
  exact List.map_id' _

/-! ### Claim C2 -/

/-- C2: for every snapshot and filter text, a tab is in the viewable set if
and only if it is a snapshot tab whose lower-cased composite key
"position+1: name" contains every character of the lower-cased filter text as
a subsequence (same left-to-right order, gaps allowed); tabs with no such
match are absent. -/
theorem c2_viewable_iff_subsequence (s : State) (tab : TabInfo) :
    tab ∈ s.viewable_tabs ↔
      tab ∈ s.tabs ∧
        ((stringToLower s.filter).data).Sublist ((stringToLower (searchKey tab)).data) := by
  rw [mem_viewable]
  exact and_congr_right fun _ => score_nonneg_iff s tab

/-! ### Claim C3 -/

/-- C3: the viewable set is ordered by score descending, equal-score tabs
keep their snapshot order (every equal-score slice is a sublist of the
snapshot), and with an empty filter text every tab matches with the same
score `0` and the viewable set is the whole snapshot in original order. -/
theorem c3_viewable_order (s : State) :
    (s.viewable_tabs).Pairwise (fun a b => s.score b ≤ s.score a)
    ∧ (∀ c : Int, ((s.viewable_tabs).filter (fun t => s.score t = c)).Sublist s.tabs)
    ∧ (s.filter = "" → (∀ tab : TabInfo, s.score tab = 0) ∧ s.viewable_tabs = s.tabs) :=
  ⟨viewable_pairwise s, fun c => viewable_stable s c,
    fun h => ⟨score_empty_filter s h, viewable_empty_filter s h⟩⟩

/-! ### Selection controller structure -/

/-- Any position produced by the selection walk belongs to the walked list. -/
theorem selectDownGo_some : ∀ {V : List TabInfo} {b : Bool} {p : Nat}
    (sel : Option Nat), selectDownGo sel V b = some p → ∃ t ∈ V, t.position = p := by
  intro V
  induction V with
  | nil => intro b p sel h; simp [selectDownGo] at h
  | cons t rest ih =>
    intro b p sel h
    rw [selectDownGo] at h
    split at h
    · exact ⟨t, List.mem_cons_self _ _, Option.some.inj h⟩
    · split at h
      · obtain ⟨u, hu, hp⟩ := ih sel h
        exact ⟨u, List.mem_cons_of_mem _ hu, hp⟩
      · obtain ⟨u, hu, hp⟩ := ih sel h
        exact ⟨u, List.mem_cons_of_mem _ hu, hp⟩

/-- Once the flag is set, the walk returns the head of the remaining list. -/
theorem selectDownGo_true (sel : Option Nat) (V : List TabInfo) :
    selectDownGo sel V true = V.head?.map (fun t => t.position) := by
  cases V <;> simp [selectDownGo]

/-- The source duplicates the walk verbatim in `select_up`; the two loop
bodies are the same function. -/
theorem selectUpGo_eq (sel : Option Nat) : ∀ (V : List TabInfo) (b : Bool),
    selectUpGo sel V b = selectDownGo sel V b := by
  intro V
  induction V with
  | nil => intro b; rfl
  | cons t rest ih => intro b; simp only [selectUpGo, selectDownGo, ih]

/-- A list with `head? = some a` contains `a`. -/
theorem mem_of_head? {α : Type} {l : List α} {a : α} (h : l.head? = some a) :
    a ∈ l := by
  cases l with
  | nil => simp at h
  | cons x xs =>
    simp only [List.head?_cons, Option.some.injEq] at h
    exact h ▸ List.mem_cons_self x xs

/-- `select_down` never touches the snapshot or the filter text. -/
theorem select_down_tabs_filter (s : State) :
    (s.select_down).tabs = s.tabs ∧ (s.select_down).filter = s.filter := by
  unfold State.select_down
  dsimp only
  cases hg : selectDownGo s.selected s.viewable_tabs false with
  | some p => exact ⟨rfl, rfl⟩
  | none =>
    cases hh : (s.viewable_tabs).head? with
    | some t => exact ⟨rfl, rfl⟩
    | none => exact ⟨rfl, rfl⟩

/-- `select_down` leaves the selection unchanged or selects a viewable tab. -/
theorem select_down_cases (s : State) :
    (s.select_down).selected = s.selected ∨
      ∃ t ∈ s.viewable_tabs, (s.select_down).selected = some t.position := by
  unfold State.select_down
  dsimp only
  cases hg : selectDownGo s.selected s.viewable_tabs false with
  | some p =>
    obtain ⟨t, ht, hp⟩ := selectDownGo_some _ hg
    exact Or.inr ⟨t, ht, by rw [hp]⟩
  | none =>
    cases hh : (s.viewable_tabs).head? with
    | none => exact Or.inl rfl
    | some t => exact Or.inr ⟨t, mem_of_head? hh, rfl⟩

/-- `select_up` never touches the snapshot or the filter text. -/
theorem select_up_tabs_filter (s : State) :
    (s.select_up).tabs = s.tabs ∧ (s.select_up).filter = s.filter := by
  unfold State.select_up
  dsimp only
  cases hg : selectUpGo s.selected (s.viewable_tabs).reverse false with
  | some p => exact ⟨rfl, rfl⟩
  | none =>
    cases hh : ((s.viewable_tabs).reverse).head? with
    | some t => exact ⟨rfl, rfl⟩
    | none => exact ⟨rfl, rfl⟩

/-- `select_up` leaves the selection unchanged or selects a viewable tab. -/
theorem select_up_cases (s : State) :
    (s.select_up).selected = s.selected ∨
      ∃ t ∈ s.viewable_tabs, (s.select_up).selected = some t.position := by
  unfold State.select_up
  dsimp only
  cases hg : selectUpGo s.selected (s.viewable_tabs).reverse false with
  | some p =>
    have hg' := hg
    rw [selectUpGo_eq] at hg'
    obtain ⟨t, ht, hp⟩ := selectDownGo_some _ hg'
    exact Or.inr ⟨t, List.mem_reverse.mp ht, by rw [hp]⟩
  | none =>
    cases hh : ((s.viewable_tabs).reverse).head? with
    | none => exact Or.inl rfl
    | some t =>
      exact Or.inr ⟨t, List.mem_reverse.mp (mem_of_head? hh), rfl⟩

/-- `reset_selection` never touches the snapshot or the filter text. -/
theorem reset_selection_tabs_filter (s : State) :
    (s.reset_selection).tabs = s.tabs ∧ (s.reset_selection).filter = s.filter := by
  unfold State.reset_selection
  dsimp only
  cases hv : s.viewable_tabs with
  | nil => simp
  | cons t rest => simp

/-- `reset_selection` selects the position of the first viewable tab, or
nothing when the viewable set is empty. -/
theorem reset_selection_selected (s : State) :
    (s.reset_selection).selected = (s.viewable_tabs).head?.map (fun t => t.position) := by
  unfold State.reset_selection
  dsimp only
  cases hv : s.viewable_tabs with
  | nil => simp
  | cons t rest => simp

/-! ### Claim C1 -/

/-- The (amended) selection invariant: the selection, when nonempty, is the
position of some snapshot tab. -/
def SelInSnapshot (s : State) : Prop :=
  s.selected = none ∨ ∃ t ∈ s.tabs, s.selected = some t.position

/-- Resetting establishes the invariant outright. -/
theorem selInSnapshot_reset (s : State) : SelInSnapshot (s.reset_selection) := by
  cases hh : (s.viewable_tabs).head? with
  | none => exact Or.inl (by rw [reset_selection_selected, hh]; rfl)
  | some t =>
    refine Or.inr ⟨t, ?_, ?_⟩
    · rw [(reset_selection_tabs_filter s).1]
      exact (mem_viewable.mp (mem_of_head? hh)).1
    · rw [reset_selection_selected, hh]; rfl

/-- `select_down` preserves the invariant. -/
theorem selInSnapshot_down (s : State) (h : SelInSnapshot s) :
    SelInSnapshot s.select_down := by
  rcases select_down_cases s with heq | ⟨t, htv, hsel⟩
  · rcases h with h | ⟨t, ht, hsel⟩
    · exact Or.inl (heq.trans h)
    · exact Or.inr ⟨t, (select_down_tabs_filter s).1 ▸ ht, heq.trans hsel⟩
  · exact Or.inr ⟨t, (select_down_tabs_filter s).1 ▸ (mem_viewable.mp htv).1, hsel⟩

/-- `select_up` preserves the invariant. -/
theorem selInSnapshot_up (s : State) (h : SelInSnapshot s) :
    SelInSnapshot s.select_up := by
  rcases select_up_cases s with heq | ⟨t, htv, hsel⟩
  · rcases h with h | ⟨t, ht, hsel⟩
    · exact Or.inl (heq.trans h)
    · exact Or.inr ⟨t, (select_up_tabs_filter s).1 ▸ ht, heq.trans hsel⟩
  · exact Or.inr ⟨t, (select_up_tabs_filter s).1 ▸ (mem_viewable.mp htv).1, hsel⟩

/-- Every dispatch step preserves the invariant. -/
theorem selInSnapshot_update (s : State) (e : Event) (h : SelInSnapshot s) :
    SelInSnapshot (s.update e).1 := by
  cases e with
  | tabUpdate l =>
    simp only [State.update]
    cases hf : l.findSome? (fun tab => if tab.active then some tab.position else none) with
    | none => exact Or.inl (by simp [hf])
    | some p =>
      obtain ⟨a, ha, hfa⟩ := List.exists_of_findSome?_eq_some hf
      by_cases hact : a.active
      · rw [if_pos hact] at hfa
        refine Or.inr ⟨a, by simpa using ha, ?_⟩
        simp [hf, ← Option.some.inj hfa]
      · rw [if_neg hact] at hfa
        exact absurd hfa (by simp)
  | key k =>
    cases k with
    | esc => exact h
    | down => exact selInSnapshot_down s h
    | up => exact selInSnapshot_up s h
    | ctrl c =>
      simp only [State.update]
      by_cases h1 : c = 'c'
      · rw [if_pos h1]; exact h
      · rw [if_neg h1]
        by_cases h2 : c = 'n'
        · rw [if_pos h2]; exact selInSnapshot_down s h
        · rw [if_neg h2]
          by_cases h3 : c = 'p'
          · rw [if_pos h3]; exact selInSnapshot_up s h
          · rw [if_neg h3]; exact h
    | char c =>
      simp only [State.update]
      by_cases h1 : c = '\n' ∨ c = 'Y'
      · rw [if_pos h1]
        cases hfind : s.tabs.find? (fun tab => some tab.position == s.selected) with
        | some tab => exact h
        | none => exact h
      · rw [if_neg h1]
        by_cases h2 : charIsAscii c
        · rw [if_pos h2]
          exact selInSnapshot_reset _
        · rw [if_neg h2]; exact h
    | backspace => exact selInSnapshot_reset _
    | otherKey => exact h
  | other => exact h

/-- Dispatching any event list preserves the invariant. -/
theorem selInSnapshot_run (s : State) (h : SelInSnapshot s) :
    ∀ es : List Event, SelInSnapshot (run s es) := by
  intro es
  induction es generalizing s with
  | nil => exact h
  | cons e es ih => exact ih _ (selInSnapshot_update s e h)

/-- C1 (amended): in every reachable state the Selection is either empty or
the position of some tab in the current snapshot.  (The original claim —
membership in the viewable set — fails: a tab-list update adopts the
host-active tab's position even when that tab does not match the current
filter; see the counterexample.) -/
theorem c1_selection_in_snapshot (es : List Event) :
    (run initState es).selected = none ∨
      ∃ t ∈ (run initState es).tabs, (run initState es).selected = some t.position :=
  selInSnapshot_run initState (Or.inl rfl) es

/-- C1 counterexample: type "z" (viewable set becomes empty), then receive a
tab update whose active tab "a" does not match the filter.  The Selection
becomes position `0`, but the viewable set is empty, so the Selection points
outside the viewable set. -/
theorem c1_counterexample :
    ¬ ((run initState [Event.key (Key.char 'z'),
          Event.tabUpdate [⟨0, "a", true⟩]]).selected = none ∨
        ∃ t ∈ (run initState [Event.key (Key.char 'z'),
          Event.tabUpdate [⟨0, "a", true⟩]]).viewable_tabs,
          (run initState [Event.key (Key.char 'z'),
            Event.tabUpdate [⟨0, "a", true⟩]]).selected = some t.position) := by
  decide

/-! ### Positional behaviour of the selection walk -/

/-- Unfolding of the walk on a cons cell with the flag still unset. -/
theorem selectDownGo_false_cons (sel : Option Nat) (t : TabInfo)
    (rest : List TabInfo) :
    selectDownGo sel (t :: rest) false =
      if some t.position = sel then selectDownGo sel rest true
      else selectDownGo sel rest false := by
  simp [selectDownGo]

/-- Helper: `List.get` respects equality of lists and of indices. -/
theorem get_congr_list {V W : List TabInfo} (hVW : V = W) {a b : Nat}
    (hab : a = b) (ha : a < V.length) (hb : b < W.length) :
    V.get ⟨a, ha⟩ = W.get ⟨b, hb⟩ := by
  subst hVW
  subst hab
  rfl

/-- Helper: indexing into a reversed list. -/
theorem get_reverse_eq {V : List TabInfo} {a b : Nat}
    (hab : V.length - 1 - a = b) (ha : a < V.reverse.length)
    (hb : b < V.length) :
    V.reverse.get ⟨a, ha⟩ = V.get ⟨b, hb⟩ := by
  subst hab
  simp only [List.get_eq_getElem, List.getElem_reverse]

/-- Helper: equal tabs have equal wrapped selected positions. -/
theorem some_pos_congr {t u : TabInfo} (h : t = u) :
    some t.position = some u.position := by
  rw [h]

/-- When the selection is the `i`-th element of a duplicate-free list, the
walk returns the `i+1`-st element, or `none` past the end. -/
theorem selectDownGo_spec : ∀ (V : List TabInfo) (i : Nat) (hi : i < V.length),
    (V.map (fun t => t.position)).Nodup →
    selectDownGo (some ((V.get ⟨i, hi⟩).position)) V false =
      if h : i + 1 < V.length then some ((V.get ⟨i + 1, h⟩).position)
      else none := by
  intro V
  induction V with
  | nil => intro i hi hnd; exact absurd hi (by simp)
  | cons t rest ih =>
    intro i hi hnd
    cases i with
    | zero =>
      simp only [List.get_eq_getElem, List.getElem_cons_zero]
      rw [selectDownGo_false_cons, if_pos rfl, selectDownGo_true]
      cases rest with
      | nil => simp
      | cons u us => simp
    | succ j =>
      have hj : j < rest.length := by
        have := hi
        simp only [List.length_cons] at this
        omega
      have hnd' : (rest.map (fun t => t.position)).Nodup := by
        rw [List.map_cons] at hnd
        exact (List.nodup_cons.mp hnd).2
      have hmem : t.position ∉ rest.map (fun t => t.position) := by
        rw [List.map_cons] at hnd
        exact (List.nodup_cons.mp hnd).1
      have hne : ¬ (some t.position
          = some (((t :: rest).get ⟨j + 1, hi⟩).position)) := by
        intro hcontra
        refine hmem (List.mem_map.mpr ⟨rest.get ⟨j, hj⟩, List.get_mem rest j hj, ?_⟩)
        have := Option.some.inj hcontra
        simp only [List.get_eq_getElem, List.getElem_cons_succ] at this ⊢
        exact this.symm
      rw [selectDownGo_false_cons, if_neg hne]
      have hstep : ((t :: rest).get ⟨j + 1, hi⟩) = rest.get ⟨j, hj⟩ := by
        simp [List.get_eq_getElem]
      rw [hstep, ih j hj hnd']
      by_cases h2 : j + 1 < rest.length
      · rw [dif_pos h2, dif_pos (by simp only [List.length_cons]; omega)]
        refine some_pos_congr ?_
        simp [List.get_eq_getElem]
      · rw [dif_neg h2, dif_neg (by simp only [List.length_cons]; omega)]

/-- `select_down` on a selection sitting at index `i` of the viewable set
moves it to index `(i+1) mod k`: one step down, wrapping at the end. -/
theorem select_down_spec (s : State) (i : Nat)
    (hi : i < (s.viewable_tabs).length)
    (hnd : ((s.viewable_tabs).map (fun t => t.position)).Nodup)
    (hsel : s.selected = some (((s.viewable_tabs).get ⟨i, hi⟩).position)) :
    (s.select_down).tabs = s.tabs ∧ (s.select_down).filter = s.filter ∧
      (s.select_down).selected =
        some (((s.viewable_tabs).get ⟨(i + 1) % (s.viewable_tabs).length,
          Nat.mod_lt (i + 1) (Nat.lt_of_le_of_lt (Nat.zero_le i) hi)⟩).position) := by
  refine ⟨(select_down_tabs_filter s).1, (select_down_tabs_filter s).2, ?_⟩
  have hgo := selectDownGo_spec (s.viewable_tabs) i hi hnd
  unfold State.select_down
  dsimp only
  rw [hsel, hgo]
  by_cases h2 : i + 1 < (s.viewable_tabs).length
  · rw [dif_pos h2]
    exact some_pos_congr (get_congr_list rfl (Nat.mod_eq_of_lt h2).symm h2 _)
  · rw [dif_neg h2]
    have hpos : 0 < (s.viewable_tabs).length :=
      Nat.lt_of_le_of_lt (Nat.zero_le i) hi
    have hhead : (s.viewable_tabs).head?
        = some ((s.viewable_tabs).get ⟨0, hpos⟩) := by
      rw [List.head?_eq_getElem?, List.getElem?_eq_getElem hpos]
      simp [List.get_eq_getElem]
    rw [hhead]
    refine some_pos_congr (get_congr_list rfl ?_ hpos _)
    have hlen : i + 1 = (s.viewable_tabs).length := by omega
    rw [hlen, Nat.mod_self]

/-- `select_up` on a selection sitting at index `i` of the viewable set moves
it to index `(i+k-1) mod k`: one step up, wrapping at the front. -/
theorem select_up_spec (s : State) (i : Nat)
    (hi : i < (s.viewable_tabs).length)
    (hnd : ((s.viewable_tabs).map (fun t => t.position)).Nodup)
    (hsel : s.selected = some (((s.viewable_tabs).get ⟨i, hi⟩).position)) :
    (s.select_up).tabs = s.tabs ∧ (s.select_up).filter = s.filter ∧
      (s.select_up).selected =
        some (((s.viewable_tabs).get
          ⟨(i + (s.viewable_tabs).length - 1) % (s.viewable_tabs).length,
          Nat.mod_lt _ (Nat.lt_of_le_of_lt (Nat.zero_le i) hi)⟩).position) := by
  refine ⟨(select_up_tabs_filter s).1, (select_up_tabs_filter s).2, ?_⟩
  have hpos : 0 < (s.viewable_tabs).length :=
    Nat.lt_of_le_of_lt (Nat.zero_le i) hi
  have hjlt : (s.viewable_tabs).length - 1 - i
      < ((s.viewable_tabs).reverse).length := by
    rw [List.length_reverse]
    omega
  have hRj : ((s.viewable_tabs).reverse).get
      ⟨(s.viewable_tabs).length - 1 - i, hjlt⟩ = (s.viewable_tabs).get ⟨i, hi⟩ :=
    get_reverse_eq (by omega) hjlt hi
  have hndR : (((s.viewable_tabs).reverse).map (fun t => t.position)).Nodup := by
    rw [List.map_reverse, List.nodup_reverse]
    exact hnd
  have hgo := selectDownGo_spec ((s.viewable_tabs).reverse)
    ((s.viewable_tabs).length - 1 - i) hjlt hndR
  rw [hRj] at hgo
  unfold State.select_up
  dsimp only
  rw [selectUpGo_eq, hsel, hgo]
  by_cases h0 : 0 < i
  · rw [dif_pos (by rw [List.length_reverse]; omega)]
    have h1 : (s.viewable_tabs).length - 1 - i + 1
        < ((s.viewable_tabs).reverse).length := by
      rw [List.length_reverse]; omega
    have hi1 : i - 1 < (s.viewable_tabs).length := by omega
    have e1 : ((s.viewable_tabs).reverse).get
        ⟨(s.viewable_tabs).length - 1 - i + 1, h1⟩
        = (s.viewable_tabs).get ⟨i - 1, hi1⟩ :=
      get_reverse_eq (show (s.viewable_tabs).length - 1
        - ((s.viewable_tabs).length - 1 - i + 1) = i - 1 by omega) h1 hi1
    refine some_pos_congr (e1.trans (get_congr_list rfl ?_ hi1 _))
    rw [show i + (s.viewable_tabs).length - 1
      = (i - 1) + (s.viewable_tabs).length by omega]
    rw [Nat.add_mod_right]
    exact (Nat.mod_eq_of_lt (by omega)).symm
  · have hi0 : i = 0 := by omega
    rw [dif_neg (by rw [List.length_reverse]; omega)]
    have hposR : 0 < ((s.viewable_tabs).reverse).length := by
      rw [List.length_reverse]
      exact hpos
    have hhead : ((s.viewable_tabs).reverse).head?
        = some (((s.viewable_tabs).reverse).get ⟨0, hposR⟩) := by
      rw [List.head?_eq_getElem?, List.getElem?_eq_getElem hposR]
      simp [List.get_eq_getElem]
    rw [hhead]
    have hk1 : (s.viewable_tabs).length - 1 < (s.viewable_tabs).length := by omega
    have e1 : ((s.viewable_tabs).reverse).get ⟨0, hposR⟩
        = (s.viewable_tabs).get ⟨(s.viewable_tabs).length - 1, hk1⟩ :=
      get_reverse_eq (show (s.viewable_tabs).length - 1 - 0
        = (s.viewable_tabs).length - 1 by omega) hposR hk1
    refine some_pos_congr (e1.trans (get_congr_list rfl ?_ hk1 _))
    rw [hi0, Nat.zero_add]
    exact (Nat.mod_eq_of_lt (by omega)).symm

/-- Iterating `select_down` `m` times from a selection at index `i` of the
viewable set lands at index `(i+m) mod k`, never touching snapshot or filter. -/
theorem select_down_iter (s : State) (i : Nat)
    (hi : i < (s.viewable_tabs).length)
    (hnd : ((s.viewable_tabs).map (fun t => t.position)).Nodup)
    (hsel : s.selected = some (((s.viewable_tabs).get ⟨i, hi⟩).position)) :
    ∀ m : Nat,
      (State.select_down^[m] s).tabs = s.tabs ∧
      (State.select_down^[m] s).filter = s.filter ∧
      (State.select_down^[m] s).selected =
        some (((s.viewable_tabs).get ⟨(i + m) % (s.viewable_tabs).length,
          Nat.mod_lt (i + m) (Nat.lt_of_le_of_lt (Nat.zero_le i) hi)⟩).position) := by
  intro m
  induction m with
  | zero =>
    refine ⟨rfl, rfl, ?_⟩
    simp only [Function.iterate_zero_apply]
    rw [hsel]
    exact some_pos_congr (get_congr_list rfl (Nat.mod_eq_of_lt hi).symm hi _)
  | succ m ihm =>
    obtain ⟨htabs, hfil, hselm⟩ := ihm
    have hveq : (State.select_down^[m] s).viewable_tabs = s.viewable_tabs :=
      viewable_congr htabs hfil
    have hk : 0 < (s.viewable_tabs).length :=
      Nat.lt_of_le_of_lt (Nat.zero_le i) hi
    have hj : (i + m) % (s.viewable_tabs).length < (s.viewable_tabs).length :=
      Nat.mod_lt _ hk
    have hj' : (i + m) % (s.viewable_tabs).length
        < ((State.select_down^[m] s).viewable_tabs).length := by
      rw [hveq]; exact hj
    have hnd' : (((State.select_down^[m] s).viewable_tabs).map
        (fun t => t.position)).Nodup := by
      rw [hveq]; exact hnd
    have hsel' : (State.select_down^[m] s).selected
        = some ((((State.select_down^[m] s).viewable_tabs).get
            ⟨(i + m) % (s.viewable_tabs).length, hj'⟩).position) := by
      rw [hselm]
      exact some_pos_congr (get_congr_list hveq.symm rfl hj hj')
    obtain ⟨ht2, hf2, hs2⟩ := select_down_spec (State.select_down^[m] s)
      ((i + m) % (s.viewable_tabs).length) hj' hnd' hsel'
    rw [Function.iterate_succ_apply']
    refine ⟨ht2.trans htabs, hf2.trans hfil, ?_⟩
    rw [hs2]
    refine some_pos_congr (get_congr_list hveq ?_ _ _)
    rw [hveq, Nat.mod_add_mod, Nat.add_assoc]

/-! ### Claim C6 -/

/-- C6 (amended): when the Selection is the position of the `i`-th element of
a non-empty viewable set whose positions are pairwise distinct (the data
model's uniqueness assumption), applying `selectDown()` `k` times, `k` the
size of the viewable set, returns the Selection to its starting value.  (The
original unconditional claim fails for an empty or stale Selection, which the
first step snaps to the top of the viewable set; see the counterexample.) -/
theorem c6_select_down_cycle (s : State) (i : Nat)
    (hi : i < (s.viewable_tabs).length)
    (hnd : ((s.viewable_tabs).map (fun t => t.position)).Nodup)
    (hsel : s.selected = some (((s.viewable_tabs).get ⟨i, hi⟩).position)) :
    (State.select_down^[(s.viewable_tabs).length] s).selected = s.selected := by
  obtain ⟨-, -, h3⟩ := select_down_iter s i hi hnd hsel (s.viewable_tabs).length
  rw [h3, hsel]
  exact some_pos_congr (get_congr_list rfl
    (by rw [Nat.add_mod_right]; exact Nat.mod_eq_of_lt hi) _ hi)

/-- C6 counterexample: in the reachable state holding tabs "a" and "b" with
no selection (viewable set of size 2), two `selectDown()` steps end on
position 1, not back on the empty starting Selection. -/
theorem c6_counterexample :
    (State.select_down^[((run initState [Event.tabUpdate
        [⟨0, "a", false⟩, ⟨1, "b", false⟩]]).viewable_tabs).length]
      (run initState [Event.tabUpdate [⟨0, "a", false⟩, ⟨1, "b", false⟩]])).selected
      ≠ (run initState
          [Event.tabUpdate [⟨0, "a", false⟩, ⟨1, "b", false⟩]]).selected := by
  decide

/-- A concrete two-tab state with the first viewable tab selected. -/
def cycleState : State :=
  { tabs := [⟨0, "a", false⟩, ⟨1, "b", false⟩], filter := "",
    selected := some 0, ignore_case := false }

theorem c6_witness :
    (State.select_down^[(cycleState.viewable_tabs).length] cycleState).selected
      = cycleState.selected :=
  c6_select_down_cycle cycleState 0 (by decide) (by decide) (by decide)

/-! ### Claim C7 -/

/-- C7 (amended): on a fixed snapshot and filter text, for every state whose
Selection is the position of an element of the viewable set (positions
pairwise distinct), `selectUp()` undoes `selectDown()` and vice versa.  (The
original claim over every state fails for an empty or stale Selection: both
moves treat it as "select the first / last viewable tab", which does not
round-trip; see the counterexample.) -/
theorem c7_select_up_down_inverse (s : State) (i : Nat)
    (hi : i < (s.viewable_tabs).length)
    (hnd : ((s.viewable_tabs).map (fun t => t.position)).Nodup)
    (hsel : s.selected = some (((s.viewable_tabs).get ⟨i, hi⟩).position)) :
    ((s.select_down).select_up).selected = s.selected ∧
      ((s.select_up).select_down).selected = s.selected := by
  have hk : 0 < (s.viewable_tabs).length :=
    Nat.lt_of_le_of_lt (Nat.zero_le i) hi
  constructor
  · obtain ⟨ht, hf, hs1⟩ := select_down_spec s i hi hnd hsel
    have hveq : (s.select_down).viewable_tabs = s.viewable_tabs :=
      viewable_congr ht hf
    have hj : (i + 1) % (s.viewable_tabs).length < (s.viewable_tabs).length :=
      Nat.mod_lt _ hk
    have hj' : (i + 1) % (s.viewable_tabs).length
        < ((s.select_down).viewable_tabs).length := by
      rw [hveq]; exact hj
    have hnd' : (((s.select_down).viewable_tabs).map
        (fun t => t.position)).Nodup := by
      rw [hveq]; exact hnd
    have hsel' : (s.select_down).selected
        = some ((((s.select_down).viewable_tabs).get
            ⟨(i + 1) % (s.viewable_tabs).length, hj'⟩).position) := by
      rw [hs1]
      exact some_pos_congr (get_congr_list hveq.symm rfl hj hj')
    obtain ⟨-, -, hs2⟩ := select_up_spec (s.select_down)
      ((i + 1) % (s.viewable_tabs).length) hj' hnd' hsel'
    rw [hs2, hsel]
    refine some_pos_congr (get_congr_list hveq ?_ _ hi)
    rw [hveq]
    rw [show (i + 1) % (s.viewable_tabs).length + (s.viewable_tabs).length - 1
        = (i + 1) % (s.viewable_tabs).length + ((s.viewable_tabs).length - 1)
      by omega]
    rw [Nat.mod_add_mod]
    rw [show i + 1 + ((s.viewable_tabs).length - 1)
        = i + (s.viewable_tabs).length by omega]
    rw [Nat.add_mod_right]
    exact Nat.mod_eq_of_lt hi
  · obtain ⟨ht, hf, hs1⟩ := select_up_spec s i hi hnd hsel
    have hveq : (s.select_up).viewable_tabs = s.viewable_tabs :=
      viewable_congr ht hf
    have hj : (i + (s.viewable_tabs).length - 1) % (s.viewable_tabs).length
        < (s.viewable_tabs).length := Nat.mod_lt _ hk
    have hj' : (i + (s.viewable_tabs).length - 1) % (s.viewable_tabs).length
        < ((s.select_up).viewable_tabs).length := by
      rw [hveq]; exact hj
    have hnd' : (((s.select_up).viewable_tabs).map
        (fun t => t.position)).Nodup := by
      rw [hveq]; exact hnd
    have hsel' : (s.select_up).selected
        = some ((((s.select_up).viewable_tabs).get
            ⟨(i + (s.viewable_tabs).length - 1) % (s.viewable_tabs).length,
              hj'⟩).position) := by
      rw [hs1]
      exact some_pos_congr (get_congr_list hveq.symm rfl hj hj')
    obtain ⟨-, -, hs2⟩ := select_down_spec (s.select_up)
      ((i + (s.viewable_tabs).length - 1) % (s.viewable_tabs).length) hj' hnd' hsel'
    rw [hs2, hsel]
    refine some_pos_congr (get_congr_list hveq ?_ _ hi)
    rw [hveq, Nat.mod_add_mod]
    rw [show i + (s.viewable_tabs).length - 1 + 1
        = i + (s.viewable_tabs).length by omega]
    rw [Nat.add_mod_right]
    exact Nat.mod_eq_of_lt hi

/-- C7 counterexample: from the reachable two-tab state with empty Selection,
`selectDown()` then `selectUp()` ends on position 1, not back on the empty
starting Selection. -/
theorem c7_counterexample :
    (((run initState [Event.tabUpdate [⟨0, "a", false⟩, ⟨1, "b", false⟩]]
        ).select_down).select_up).selected
      ≠ (run initState
          [Event.tabUpdate [⟨0, "a", false⟩, ⟨1, "b", false⟩]]).selected := by
  decide

/-- A concrete two-tab state with the second viewable tab selected. -/
def inverseState : State :=
  { tabs := [⟨0, "a", false⟩, ⟨1, "b", false⟩], filter := "",
    selected := some 1, ignore_case := false }

theorem c7_witness :
    ((inverseState.select_down).select_up).selected = inverseState.selected ∧
      ((inverseState.select_up).select_down).selected = inverseState.selected :=
  c7_select_up_down_inverse inverseState 1 (by decide) (by decide) (by decide)

/-! ### Claim C3 witness -/

/-- A concrete three-tab snapshot with an empty filter text. -/
def emptyFilterState : State :=
  { tabs := [⟨0, "editor", false⟩, ⟨1, "build", false⟩, ⟨2, "tests", true⟩],
    filter := "", selected := some 0, ignore_case := false }

theorem c3_witness :
    emptyFilterState.viewable_tabs = emptyFilterState.tabs ∧
      emptyFilterState.score ⟨2, "tests", true⟩ = 0 :=
  ⟨((c3_viewable_order emptyFilterState).2.2 rfl).2,
    ((c3_viewable_order emptyFilterState).2.2 rfl).1 ⟨2, "tests", true⟩⟩

/-! ### Claim C5 -/

/-- `find_map` over the activity test is `find?` then `map` to the position. -/
theorem findSome?_active : ∀ l : List TabInfo,
    l.findSome? (fun tab => if tab.active then some tab.position else none)
      = (l.find? (fun tab => tab.active)).map (fun tab => tab.position) := by
  intro l
  induction l with
  | nil => rfl
  | cons t rest ih =>
    rw [List.findSome?_cons, List.find?_cons]
    by_cases h : t.active = true
    · simp [h]
    · simp only [Bool.not_eq_true] at h
      simp [h, ih]

/-- C5 (amended): a tab-list update replaces the snapshot wholesale, always
requests a redraw, emits no commands, leaves the filter text unchanged, and
sets the Selection to the position of the first host-marked-active tab — or
clears it to empty when no delivered tab is active (it is NOT re-derived by
the reset rules in that case; see the counterexample). -/
theorem c5_tab_update (s : State) (l : List TabInfo) :
    s.update (Event.tabUpdate l) =
      ({ tabs := l,
         filter := s.filter,
         selected := (l.find? (fun tab => tab.active)).map
           (fun tab => tab.position),
         ignore_case := s.ignore_case }, [], true) := by
  simp only [State.update, findSome?_active]

/-- C5 counterexample: a tab-list update delivering a single inactive tab
(fresh state, empty filter) clears the Selection to `none`, whereas the
claim's reset rules would have selected the first viewable tab, position 0. -/
theorem c5_counterexample :
    ((initState.update (Event.tabUpdate [⟨0, "a", false⟩])).1.selected = none)
    ∧ (((initState.update
        (Event.tabUpdate [⟨0, "a", false⟩])).1.reset_selection).selected
          = some 0) := by
  decide

/-! ### Claim C4 -/

/-- C4: on the confirm key ('\n' or 'Y'), if a snapshot tab's position equals
the current Selection, the dispatcher emits "close overlay" then "switch
active tab" with the 1-based position (zero-based position plus one) and the
state is unchanged; if the Selection is empty or no snapshot tab carries it,
no command is emitted and the state is unchanged (no redraw either way). -/
theorem c4_confirm (s : State) (c : Char) (hc : c = '\n' ∨ c = 'Y') :
    (∀ p : Nat, s.selected = some p → (∃ t ∈ s.tabs, t.position = p) →
      s.update (Event.key (Key.char c))
        = (s, [Command.closeFocus, Command.switchTabTo (p + 1)], false))
    ∧ ((∀ t ∈ s.tabs, s.selected ≠ some t.position) →
      s.update (Event.key (Key.char c)) = (s, [], false)) := by
  constructor
  · intro p hp hex
    simp only [State.update]
    rw [if_pos hc]
    have hsome : (s.tabs.find?
        (fun tab => some tab.position == s.selected)).isSome = true := by
      rw [List.find?_isSome]
      obtain ⟨t, ht, hpos⟩ := hex
      refine ⟨t, ht, ?_⟩
      rw [hp]
      exact beq_iff_eq.mpr (by rw [hpos])
    cases hfind : s.tabs.find? (fun tab => some tab.position == s.selected) with
    | none => rw [hfind] at hsome; simp at hsome
    | some t =>
      have hpred := List.find?_some hfind
      rw [hp] at hpred
      have hpt : t.position = p := Option.some.inj (beq_iff_eq.mp hpred)
      dsimp only
      rw [hpt]
  · intro hnone
    simp only [State.update]
    rw [if_pos hc]
    have hfind : s.tabs.find?
        (fun tab => some tab.position == s.selected) = none := by
      rw [List.find?_eq_none]
      intro t ht
      simp only [beq_iff_eq]
      exact fun hcontra => hnone t ht hcontra.symm
    rw [hfind]

/-- A concrete snapshot where the tab at position 1 is selected. -/
def confirmState : State :=
  { tabs := [⟨0, "editor", false⟩, ⟨1, "build", true⟩], filter := "",
    selected := some 1, ignore_case := false }

theorem c4_witness :
    confirmState.update (Event.key (Key.char '\n'))
      = (confirmState, [Command.closeFocus, Command.switchTabTo 2], false) :=
  (c4_confirm confirmState '\n' (Or.inl rfl)).1 1 rfl
    ⟨⟨1, "build", true⟩, by decide, rfl⟩

/-! ### Claim C8 -/

/-- C8 (amended): dispatching backspace on a state whose FilterText is empty
leaves the FilterText empty, keeps the snapshot, emits no command, requests a
redraw, and resets the Selection to the position of the first viewable tab
(empty when the viewable set is empty) — it does not in general leave the
Selection unchanged (see the counterexample). -/
theorem c8_backspace_empty (s : State) (h : s.filter = "") :
    (s.update (Event.key Key.backspace)).1.filter = "" ∧
    (s.update (Event.key Key.backspace)).1.tabs = s.tabs ∧
    (s.update (Event.key Key.backspace)).2.1 = [] ∧
    (s.update (Event.key Key.backspace)).2.2 = true ∧
    (s.update (Event.key Key.backspace)).1.selected
      = ((s.viewable_tabs).head?.map (fun t => t.position)) := by
  have hpop : stringPop s.filter = "" := by
    rw [h]
    rfl
  simp only [State.update]
  refine ⟨?_, ?_, trivial, trivial, ?_⟩
  · rw [(reset_selection_tabs_filter _).2]
    exact hpop
  · rw [(reset_selection_tabs_filter _).1]
  · rw [reset_selection_selected]
    have hv : ({ s with filter := stringPop s.filter } : State).viewable_tabs
        = s.viewable_tabs :=
      viewable_congr rfl (by rw [hpop, h])
    rw [hv]

/-- C8 counterexample: reachable state with empty FilterText and Selection on
position 1 (the host-active tab); backspace resets the Selection to the top
of the viewable set, so the Selection moves although FilterText was empty. -/
theorem c8_counterexample :
    (run initState [Event.tabUpdate [⟨0, "a", false⟩, ⟨1, "b", true⟩]]).filter = ""
    ∧ ((run initState [Event.tabUpdate [⟨0, "a", false⟩, ⟨1, "b", true⟩]]).update
          (Event.key Key.backspace)).1.selected
        ≠ (run initState
            [Event.tabUpdate [⟨0, "a", false⟩, ⟨1, "b", true⟩]]).selected := by
  decide

/-- A concrete state with empty filter text and the second tab selected. -/
def backspaceState : State :=
  { tabs := [⟨0, "a", false⟩, ⟨1, "b", false⟩], filter := "",
    selected := some 1, ignore_case := false }

theorem c8_witness :
    (backspaceState.update (Event.key Key.backspace)).1.filter = "" ∧
    (backspaceState.update (Event.key Key.backspace)).1.tabs = backspaceState.tabs ∧
    (backspaceState.update (Event.key Key.backspace)).2.1 = [] ∧
    (backspaceState.update (Event.key Key.backspace)).2.2 = true ∧
    (backspaceState.update (Event.key Key.backspace)).1.selected
      = ((backspaceState.viewable_tabs).head?.map (fun t => t.position)) :=
  c8_backspace_empty backspaceState rfl

/-! ### Claim C9 -/

/-- C9: when the `ignore_case` configuration value is present but not a valid
textual boolean, the startup read crashes — `value.trim().parse().unwrap()`
panics, modelled as `none` — instead of falling back to the default `true`;
the default `true` applies only when the option is absent. -/
theorem c9_load_invalid_panics :
    State.load [(("ignore_case"), ("yes"))] = none
      ∧ State.load [] = some true :=
  ⟨rfl, rfl⟩

/-! ### Claim C10 -/

/-- Every dispatch step preserves all-ASCII filter text: only the
ASCII-guarded printable arm ever appends a character. -/
theorem filterAscii_update (s : State) (e : Event)
    (h : s.filter.data.all (fun c => charIsAscii c) = true) :
    ((s.update e).1).filter.data.all (fun c => charIsAscii c) = true := by
  cases e with
  | tabUpdate l => exact h
  | other => exact h
  | key k =>
    cases k with
    | esc => exact h
    | otherKey => exact h
    | down =>
      show ((s.select_down).filter.data.all (fun c => charIsAscii c)) = true
      rw [(select_down_tabs_filter s).2]
      exact h
    | up =>
      show ((s.select_up).filter.data.all (fun c => charIsAscii c)) = true
      rw [(select_up_tabs_filter s).2]
      exact h
    | ctrl c =>
      simp only [State.update]
      by_cases h1 : c = 'c'
      · rw [if_pos h1]; exact h
      · rw [if_neg h1]
        by_cases h2 : c = 'n'
        · rw [if_pos h2]
          show ((s.select_down).filter.data.all (fun c => charIsAscii c)) = true
          rw [(select_down_tabs_filter s).2]
          exact h
        · rw [if_neg h2]
          by_cases h3 : c = 'p'
          · rw [if_pos h3]
            show ((s.select_up).filter.data.all (fun c => charIsAscii c)) = true
            rw [(select_up_tabs_filter s).2]
            exact h
          · rw [if_neg h3]; exact h
    | backspace =>
      simp only [State.update]
      show (({ s with filter := stringPop s.filter
        } : State).reset_selection).filter.data.all (fun c => charIsAscii c) = true
      rw [(reset_selection_tabs_filter _).2]
      show ((stringPop s.filter).data.all (fun c => charIsAscii c)) = true
      rw [List.all_eq_true] at h ⊢
      intro c hc
      exact h c ((List.dropLast_sublist _).subset hc)
    | char c =>
      simp only [State.update]
      by_cases h1 : c = '\n' ∨ c = 'Y'
      · rw [if_pos h1]
        cases hfind : s.tabs.find? (fun tab => some tab.position == s.selected) with
        | some tab => exact h
        | none => exact h
      · rw [if_neg h1]
        by_cases h2 : charIsAscii c = true
        · rw [if_pos h2]
          show (({ s with filter := s.filter.push c
            } : State).reset_selection).filter.data.all (fun c => charIsAscii c)
              = true
          rw [(reset_selection_tabs_filter _).2]
          show ((s.filter.push c).data.all (fun c => charIsAscii c)) = true
          have hdata : (s.filter.push c).data = s.filter.data ++ [c] := rfl
          rw [hdata, List.all_append, Bool.and_eq_true]
          refine ⟨h, ?_⟩
          simp [h2]
        · rw [if_neg h2]; exact h

/-- All-ASCII filter text is invariant along any event list. -/
theorem filterAscii_run (s : State)
    (h : s.filter.data.all (fun c => charIsAscii c) = true) :
    ∀ es : List Event,
      ((run s es).filter.data.all (fun c => charIsAscii c)) = true := by
  intro es
  induction es generalizing s with
  | nil => exact h
  | cons e es ih => exact ih _ (filterAscii_update s e h)

/-- C10: the FilterText only ever contains ASCII characters: every reachable
state has all-ASCII filter text; a printable-character key event carrying a
non-ASCII character falls to the catch-all no-op (state unchanged, no
commands, no redraw, nothing appended); and the confirm characters '\n' and
'Y' are intercepted by the confirm arm, never reaching the append arm. -/
theorem c10_filter_ascii :
    (∀ es : List Event,
      ((run initState es).filter.data.all (fun c => charIsAscii c)) = true)
    ∧ (∀ (s : State) (c : Char), charIsAscii c = false →
        s.update (Event.key (Key.char c)) = (s, [], false))
    ∧ (∀ s : State,
        (s.update (Event.key (Key.char '\n'))).1.filter = s.filter ∧
        (s.update (Event.key (Key.char 'Y'))).1.filter = s.filter) := by
  refine ⟨filterAscii_run initState rfl, ?_, ?_⟩
  · intro s c hna
    simp only [State.update]
    have h1 : ¬ (c = '\n' ∨ c = 'Y') := by
      rintro (rfl | rfl)
      · exact absurd hna (by decide)
      · exact absurd hna (by decide)
    rw [if_neg h1, if_neg (by rw [hna]; exact Bool.false_ne_true)]
  · intro s
    constructor
    · simp only [State.update]
      rw [if_pos (Or.inl trivial)]
      cases hfind : s.tabs.find? (fun tab => some tab.position == s.selected) with
      | some tab => rfl
      | none => rfl
    · simp only [State.update]
      rw [if_pos (Or.inr trivial)]
      cases hfind : s.tabs.find? (fun tab => some tab.position == s.selected) with
      | some tab => rfl
      | none => rfl

theorem c10_witness :
    initState.update (Event.key (Key.char '\u00e9')) = (initState, [], false) :=
  c10_filter_ascii.2.1 initState '\u00e9' (by decide)

end Room
